import Mathlib

/-!
Verification of the manifest retrieval-and-transform pipeline of
terraform-provider-manifest (internal/provider/data_source_fetch.go).

The Go code works on dynamically typed YAML values (map[any]any). We embed
those values as a recursive tree: scalars (strings and null), nested
mappings and sequences. Mappings are association lists with string keys,
which matches every value the strict yaml.v2 decoder produces for the
manifests this provider consumes. Go map mutation is modelled by pure
functions returning the updated record.
-/

/-- A decoded YAML value as held in Go's map[any]any trees: null, a scalar
(rendered by its text), a nested mapping, or a sequence. -/
inductive Value where
  | null : Value
  | str : String → Value
  | map : List (String × Value) → Value
  | seq : List Value → Value

/-- A decoded manifest: the top-level mapping (Go: map[any]any). -/
abbrev Record := List (String × Value)

/-- Go map indexing m[k]: the value stored under k, if present. -/
def lookupV (m : Record) (k : String) : Option Value :=
  match m with
  | [] => none
  | (k2, v) :: rest => if k2 = k then some v else lookupV rest k

/-- Go delete(m, k): remove the entry with key k (a no-op when absent). -/
def eraseKey (m : Record) (k : String) : Record :=
  match m with
  | [] => []
  | (k2, v) :: rest => if k2 = k then eraseKey rest k else (k2, v) :: eraseKey rest k

/-- In-place update of the value under an existing key k (the effect of
mutating a nested sub-map that was reached through m[k]). Keys that are
absent are not added, matching that the caller only updates after a
successful lookup. -/
def setKey (m : Record) (k : String) (v : Value) : Record :=
  match m with
  | [] => []
  | (k2, v2) :: rest => if k2 = k then (k2, v) :: setKey rest k v else (k2, v2) :: setKey rest k v

/-- strings.Split(s, ".") on the underlying characters: split at every dot,
keeping empty segments; the empty input yields one empty segment. -/
def splitDotAux : List Char → List (List Char)
  | [] => [[]]
  | c :: rest =>
    if c = '.' then [] :: splitDotAux rest
    else
      match splitDotAux rest with
      | [] => [[c]]
      | h :: t => (c :: h) :: t

/-- strings.Split(attribute, ".") as used by Read to build a field path. -/
def splitDot (s : String) : List String :=
  (splitDotAux s.data).map (fun cs => String.mk cs)

/-- removeAttribute from data_source_fetch.go. Go panics on an empty path
(path[0] is out of range after the len(path) == 1 test fails), which the
embedding renders as none; every other case succeeds:
a single segment deletes that key, a longer path descends through
manifest[path[0]] only when it holds a nested mapping and otherwise leaves
the record unchanged. -/
def removeAttribute (manifest : Record) (path : List String) : Option Record :=
  match path with
  | [] => none
  | [k] => some (eraseKey manifest k)
  | k :: rest =>
    match lookupV manifest k with
    | some (Value.map sub) =>
      match removeAttribute sub rest with
      | some sub2 => some (setKey manifest k (Value.map sub2))
      | none => none
    | _ => some manifest

/-- The pruning walk exactly as the specification words it (section 4.3):
start at the root; for each non-terminal segment descend only when the
value under that key is itself a nested mapping, otherwise stop with no
effect; at the terminal segment delete the key if present. Total by
construction; stated only to be compared with removeAttribute. -/
def pruneWalkSpec (m : Record) (path : List String) : Record :=
  match path with
  | [] => m
  | [k] => eraseKey m k
  | k :: rest =>
    match lookupV m k with
    | some (Value.map sub) => setKey m k (Value.map (pruneWalkSpec sub rest))
    | _ => m

/-- contains from data_source_fetch.go: linear membership test. -/
def contains (arr : List String) (needle : String) : Bool :=
  match arr with
  | [] => false
  | element :: rest => if element = needle then true else contains rest needle

mutual

/-- Go fmt's %s rendering of a decoded value as far as the pipeline relies
on it: a string scalar prints verbatim, and a stored nil goes through fmt's
badVerb path (the %s verb has no string form for a nil interface) printing
the literal text %!s(<nil>) — the bare <nil> rendering belongs to %v, which
the code does not use. Composite values are rendered recursively in Go
fmt's map[k:v ...] and [e ...] shapes (Go additionally sorts map keys,
which the embedding's association lists do not track, and renders scalar
kinds outside this model's string/null universe in %!s(...)-style; no claim
depends on composite or non-string-scalar rendering). -/
def goFmtValue : Value → String
  | Value.null => "%!s(<nil>)"
  | Value.str s => s
  | Value.map entries => "map[" ++ goFmtEntries entries ++ "]"
  | Value.seq elems => "[" ++ goFmtElems elems ++ "]"

/-- Rendering of mapping entries, space separated. -/
def goFmtEntries : List (String × Value) → String
  | [] => ""
  | [(k, v)] => k ++ ":" ++ goFmtValue v
  | (k, v) :: e :: rest => k ++ ":" ++ goFmtValue v ++ " " ++ goFmtEntries (e :: rest)

/-- Rendering of sequence elements, space separated. -/
def goFmtElems : List Value → String
  | [] => ""
  | [v] => goFmtValue v
  | v :: e :: rest => goFmtValue v ++ " " ++ goFmtElems (e :: rest)

end

/-- Go fmt's %s applied to the result of a map lookup: a missing key yields
the nil interface, which %s prints through badVerb as the literal text
%!s(<nil>), the same as a stored null. -/
def goFmtLookup : Option Value → String
  | none => "%!s(<nil>)"
  | some v => goFmtValue v

/-- fmt.Sprintf of apiVersion/kind in unmarshalAllManifests: the record's
type identity used against the allowed-resources list. -/
def typeIdentity (manifest : Record) : String :=
  goFmtLookup (lookupV manifest "apiVersion") ++ "/" ++ goFmtLookup (lookupV manifest "kind")

/-- One document of the response stream as the strict yaml.v2 decoder sees
it: either it decodes to a mapping, or decoding reports an error (malformed
structure or duplicate fields under SetStrict). The stream of documents
abstracts the byte stream; the YAML tokenizer itself is library code. -/
inductive Doc where
  | ok : Record → Doc
  | malformed : String → Doc

/-- unmarshalAllManifests from data_source_fetch.go: decode documents in
stream order until end of stream; any decode error aborts the whole
operation with that error; a decoded manifest is kept when no
allowed-resources list was supplied (nil) or its type identity is a member
of the list. -/
def unmarshalAllManifests (docs : List Doc) (allowedResources : Option (List String)) :
    Except String (List Record) :=
  match docs with
  | [] => Except.ok []
  | Doc.malformed msg :: _ => Except.error msg
  | Doc.ok manifest :: rest =>
    match unmarshalAllManifests rest allowedResources with
    | Except.error e => Except.error e
    | Except.ok manifests =>
      if allowedResources.isNone || contains (allowedResources.getD []) (typeIdentity manifest)
      then Except.ok (manifest :: manifests)
      else Except.ok manifests

/-- The record-keeping predicate of unmarshalAllManifests, for stating
results: keep when no list was supplied, otherwise when the type identity
is a member. -/
def keepB (allowedResources : Option (List String)) (manifest : Record) : Bool :=
  match allowedResources with
  | none => true
  | some l => contains l (typeIdentity manifest)

/-- Read's normalization of the only_resources list: an empty parsed list
becomes nil before it reaches unmarshalAllManifests. -/
def normalizeOnly (onlyResources : List String) : Option (List String) :=
  if onlyResources.length = 0 then none else some onlyResources

/-- Read's inner pruning loop over one manifest: apply removeAttribute for
every configured path in order. none only when removeAttribute would have
panicked on an empty path. -/
def pruneAll (m : Record) (paths : List (List String)) : Option Record :=
  match paths with
  | [] => some m
  | p :: rest =>
    match removeAttribute m p with
    | some m2 => pruneAll m2 rest
    | none => none

/-- Read's outer pruning loop: every decoded manifest is pruned in place. -/
def pruneManifests (ms : List Record) (paths : List (List String)) : Option (List Record) :=
  match ms with
  | [] => some []
  | m :: rest =>
    match pruneAll m paths with
    | some m2 =>
      match pruneManifests rest paths with
      | some rest2 => some (m2 :: rest2)
      | none => none
    | none => none

/-- The marshalling step of Read: encoded, _ := yaml.Marshal(manifest)
followed by string(encoded). A failed Marshal returns nil bytes together
with the ignored error, and string(nil) is the empty string. -/
def encodeStep (marshalResult : Option String) : String :=
  match marshalResult with
  | some s => s
  | none => ""

/-- Read from data_source_fetch.go, from the point a response (status code
and body stream) is available: reject any status other than 200 with the
exact diagnostic detail Go formats, otherwise decode and filter the body,
prune every surviving manifest along every dotted attribute path, and
re-encode each in order. The serializer yaml.Marshal is a parameter (some
on success, none on error, whose bytes Read ignores). The outer none marks
the panic that an empty pruning path would cause; the theorems show it is
never reached. -/
def readPipeline (ser : Record → Option String) (statusCode : Nat) (body : List Doc)
    (filteredAttributesRaw : List String) (onlyResourcesRaw : List String) :
    Option (Except String (List String)) :=
  if statusCode ≠ 200 then
    some (Except.error ("Received non-success response code: " ++ toString statusCode))
  else
    match unmarshalAllManifests body (normalizeOnly onlyResourcesRaw) with
    | Except.error e => some (Except.error ("Error parsing response body: " ++ e))
    | Except.ok filterableManifests =>
      match pruneManifests filterableManifests (filteredAttributesRaw.map splitDot) with
      | none => none
      | some pruned => some (Except.ok (pruned.map (fun m => encodeStep (ser m))))

/-- The value reached by walking a field path: descend through nested
mappings for the leading segments and read the terminal key; none when any
step fails to resolve. The empty path denotes the root itself. -/
def getPath (m : Record) (path : List String) : Option Value :=
  match path with
  | [] => some (Value.map m)
  | [k] => lookupV m k
  | k :: rest =>
    match lookupV m k with
    | some (Value.map sub) => getPath sub rest
    | _ => none

/-- Two field paths neither of which extends (or equals) the other: such
paths name disjoint parts of a record. -/
def divergent (p q : List String) : Prop :=
  (¬ ∃ t, p ++ t = q) ∧ (¬ ∃ t, q ++ t = p)

/-- Fuel-bounded semantic equality of values: equal scalars, pointwise
equal sequences, and mappings carrying the same keys with semantically
equal values regardless of entry order. -/
def semEqF : Nat → Value → Value → Bool
  | 0, _, _ => false
  | _ + 1, Value.null, Value.null => true
  | _ + 1, Value.str a, Value.str b => a = b
  | f + 1, Value.seq a, Value.seq b =>
    a.length = b.length && (List.zip a b).all (fun p => semEqF f p.1 p.2)
  | f + 1, Value.map a, Value.map b =>
    (a.all fun p =>
      match lookupV b p.1 with
      | some v => semEqF f p.2 v
      | none => false) &&
    (b.all fun p =>
      match lookupV a p.1 with
      | some v => semEqF f v p.2
      | none => false)
  | _ + 1, _, _ => false

/-- Semantic equality of records: content equal modulo mapping-entry order. -/
def RecordSemEq (a b : Record) : Prop :=
  ∃ fuel, semEqF fuel (Value.map a) (Value.map b) = true

/-! ### Basic lemmas about the record operations -/

theorem lookupV_eraseKey_self (m : Record) (k : String) :
    lookupV (eraseKey m k) k = none := by
  induction m with
  | nil => rfl
  | cons p rest ih =>
    obtain ⟨k2, v⟩ := p
    simp only [eraseKey]
    by_cases h : k2 = k
    · simp [h, ih]
    · simp [lookupV, h, ih]

theorem lookupV_eraseKey_ne (m : Record) (k k2 : String) (h : k2 ≠ k) :
    lookupV (eraseKey m k) k2 = lookupV m k2 := by
  induction m with
  | nil => rfl
  | cons p rest ih =>
    obtain ⟨k3, v⟩ := p
    simp only [eraseKey, lookupV]
    by_cases h3 : k3 = k
    · subst h3
      have hne : ¬ (k3 = k2) := fun hh => h (hh ▸ rfl)
      rw [if_pos rfl, if_neg hne]
      exact ih
    · rw [if_neg h3, lookupV]
      by_cases h4 : k3 = k2
      · rw [if_pos h4, if_pos h4]
      · rw [if_neg h4, if_neg h4]
        exact ih

theorem lookupV_setKey_self (m : Record) (k : String) (v : Value) :
    lookupV (setKey m k v) k = (lookupV m k).map (fun _ => v) := by
  induction m with
  | nil => rfl
  | cons p rest ih =>
    obtain ⟨k2, v2⟩ := p
    simp only [setKey, lookupV]
    by_cases h : k2 = k
    · simp [lookupV, h]
    · rw [if_neg h, lookupV, if_neg h, if_neg h]
      exact ih

theorem lookupV_setKey_ne (m : Record) (k k2 : String) (v : Value) (h : k2 ≠ k) :
    lookupV (setKey m k v) k2 = lookupV m k2 := by
  induction m with
  | nil => rfl
  | cons p rest ih =>
    obtain ⟨k3, v3⟩ := p
    simp only [setKey, lookupV]
    by_cases h3 : k3 = k
    · have hne : ¬ (k3 = k2) := fun hh => h (hh ▸ h3)
      rw [if_pos h3, lookupV, if_neg hne, if_neg hne]
      exact ih
    · rw [if_neg h3, lookupV]
      by_cases h4 : k3 = k2
      · rw [if_pos h4, if_pos h4]
      · rw [if_neg h4, if_neg h4]
        exact ih

theorem eraseKey_of_absent (m : Record) (k : String) (h : lookupV m k = none) :
    eraseKey m k = m := by
  induction m with
  | nil => rfl
  | cons p rest ih =>
    obtain ⟨k2, v⟩ := p
    simp only [lookupV] at h
    by_cases h2 : k2 = k
    · simp [h2] at h
    · simp [h2] at h
      simp [eraseKey, h2, ih h]

/-! ### The split used to build field paths -/

theorem splitDotAux_ne_nil (cs : List Char) : splitDotAux cs ≠ [] := by
  induction cs with
  | nil => simp [splitDotAux]
  | cons c rest ih =>
    simp only [splitDotAux]
    by_cases h : c = '.'
    · simp [h]
    · simp only [if_neg h]
      cases hr : splitDotAux rest with
      | nil => simp
      | cons a t => simp

theorem splitDot_ne_nil (s : String) : splitDot s ≠ [] := by
  have h := splitDotAux_ne_nil s.data
  simp only [splitDot, ne_eq, List.map_eq_nil_iff]
  exact h

/-! ### The pruner agrees with the specification's walk and is total on
non-empty paths -/

theorem removeAttribute_eq_spec (path : List String) (m : Record) (h : path ≠ []) :
    removeAttribute m path = some (pruneWalkSpec m path) := by
  induction path generalizing m with
  | nil => exact absurd rfl h
  | cons k rest ih =>
    cases rest with
    | nil => rfl
    | cons k2 rest2 =>
      simp only [removeAttribute, pruneWalkSpec]
      cases hl : lookupV m k with
      | none => rfl
      | some v =>
        cases v with
        | null => rfl
        | str s => rfl
        | seq l => rfl
        | map sub =>
          simp [ih sub (by simp)]

/-! ### Reading a path after pruning -/

theorem getPath_congr_head (m1 m2 : Record) (k : String) (qrest : List String)
    (h : lookupV m1 k = lookupV m2 k) :
    getPath m1 (k :: qrest) = getPath m2 (k :: qrest) := by
  cases qrest with
  | nil =>
    simp only [getPath]
    exact h
  | cons q qs =>
    simp only [getPath]
    rw [h]

theorem getPath_pruneWalkSpec_self (p : List String) (m : Record) (h : p ≠ []) :
    getPath (pruneWalkSpec m p) p = none := by
  induction p generalizing m with
  | nil => exact absurd rfl h
  | cons k rest ih =>
    cases rest with
    | nil =>
      simp only [pruneWalkSpec, getPath]
      exact lookupV_eraseKey_self m k
    | cons k2 rest2 =>
      cases hl : lookupV m k with
      | none => simp [pruneWalkSpec, getPath, hl]
      | some v =>
        cases v with
        | null => simp [pruneWalkSpec, getPath, hl]
        | str s => simp [pruneWalkSpec, getPath, hl]
        | seq l => simp [pruneWalkSpec, getPath, hl]
        | map sub =>
          have hs := lookupV_setKey_self m k (Value.map (pruneWalkSpec sub (k2 :: rest2)))
          rw [hl] at hs
          simp only [Option.map_some'] at hs
          simp only [pruneWalkSpec, hl, getPath, hs]
          exact ih sub (by simp)

theorem divergent_cons (k : String) (p q : List String) (h : divergent (k :: p) (k :: q)) :
    divergent p q := by
  obtain ⟨d1, d2⟩ := h
  constructor
  · intro hx
    obtain ⟨t, ht⟩ := hx
    exact d1 ⟨t, by simp [ht]⟩
  · intro hx
    obtain ⟨t, ht⟩ := hx
    exact d2 ⟨t, by simp [ht]⟩

theorem getPath_pruneWalkSpec_divergent (p : List String) (m : Record) (q : List String)
    (h : divergent p q) :
    getPath (pruneWalkSpec m p) q = getPath m q := by
  induction p generalizing m q with
  | nil => rfl
  | cons k rest ih =>
    cases q with
    | nil => exact absurd ⟨k :: rest, rfl⟩ h.2
    | cons kq qrest =>
      by_cases hk : kq = k
      · subst hk
        cases rest with
        | nil => exact absurd ⟨qrest, rfl⟩ h.1
        | cons r rs =>
          cases hl : lookupV m kq with
          | none => simp [pruneWalkSpec, hl]
          | some v =>
            cases v with
            | null => simp [pruneWalkSpec, hl]
            | str s => simp [pruneWalkSpec, hl]
            | seq l => simp [pruneWalkSpec, hl]
            | map sub =>
              cases qrest with
              | nil => exact absurd ⟨r :: rs, rfl⟩ h.2
              | cons q1 qs =>
                have hs := lookupV_setKey_self m kq (Value.map (pruneWalkSpec sub (r :: rs)))
                rw [hl] at hs
                simp only [Option.map_some'] at hs
                simp only [pruneWalkSpec, hl, getPath, hs]
                exact ih sub (q1 :: qs) (divergent_cons kq _ _ h)
      · cases rest with
        | nil =>
          have hcong := getPath_congr_head (eraseKey m k) m kq qrest
            (lookupV_eraseKey_ne m k kq hk)
          simpa only [pruneWalkSpec] using hcong
        | cons r rs =>
          cases hl : lookupV m k with
          | none => simp [pruneWalkSpec, hl]
          | some v =>
            cases v with
            | null => simp [pruneWalkSpec, hl]
            | str s => simp [pruneWalkSpec, hl]
            | seq l => simp [pruneWalkSpec, hl]
            | map sub =>
              have hcong := getPath_congr_head
                (setKey m k (Value.map (pruneWalkSpec sub (r :: rs)))) m kq qrest
                (lookupV_setKey_ne m k kq (Value.map (pruneWalkSpec sub (r :: rs))) hk)
              simpa only [pruneWalkSpec, hl] using hcong

theorem getPath_none_pruneWalkSpec (p : List String) (m : Record) (q : List String)
    (h : getPath m q = none) :
    getPath (pruneWalkSpec m p) q = none := by
  induction p generalizing m q with
  | nil => exact h
  | cons k rest ih =>
    cases q with
    | nil => simp [getPath] at h
    | cons kq qrest =>
      by_cases hk : kq = k
      · subst hk
        cases rest with
        | nil =>
          cases qrest with
          | nil =>
            simp only [pruneWalkSpec, getPath]
            exact lookupV_eraseKey_self m kq
          | cons q1 qs =>
            simp only [pruneWalkSpec, getPath, lookupV_eraseKey_self m kq]
        | cons r rs =>
          cases hl : lookupV m kq with
          | none =>
            simp only [pruneWalkSpec, hl]
            exact h
          | some v =>
            cases v with
            | null =>
              simp only [pruneWalkSpec, hl]
              exact h
            | str s =>
              simp only [pruneWalkSpec, hl]
              exact h
            | seq l =>
              simp only [pruneWalkSpec, hl]
              exact h
            | map sub =>
              cases qrest with
              | nil => simp [getPath, hl] at h
              | cons q1 qs =>
                simp only [getPath, hl] at h
                have hs := lookupV_setKey_self m kq (Value.map (pruneWalkSpec sub (r :: rs)))
                rw [hl] at hs
                simp only [Option.map_some'] at hs
                simp only [pruneWalkSpec, hl, getPath, hs]
                exact ih sub (q1 :: qs) h
      · cases rest with
        | nil =>
          have hcong := getPath_congr_head (eraseKey m k) m kq qrest
            (lookupV_eraseKey_ne m k kq hk)
          simp only [pruneWalkSpec]
          exact hcong.trans h
        | cons r rs =>
          cases hl : lookupV m k with
          | none =>
            simp only [pruneWalkSpec, hl]
            exact h
          | some v =>
            cases v with
            | null =>
              simp only [pruneWalkSpec, hl]
              exact h
            | str s =>
              simp only [pruneWalkSpec, hl]
              exact h
            | seq l =>
              simp only [pruneWalkSpec, hl]
              exact h
            | map sub =>
              have hcong := getPath_congr_head
                (setKey m k (Value.map (pruneWalkSpec sub (r :: rs)))) m kq qrest
                (lookupV_setKey_ne m k kq (Value.map (pruneWalkSpec sub (r :: rs))) hk)
              simp only [pruneWalkSpec, hl]
              exact hcong.trans h

/-! ### Lifting the pruning lemmas over a list of paths -/

theorem getPath_none_foldl (paths : List (List String)) (m : Record) (q : List String)
    (h : getPath m q = none) :
    getPath (paths.foldl pruneWalkSpec m) q = none := by
  induction paths generalizing m with
  | nil => exact h
  | cons p rest ih =>
    simp only [List.foldl_cons]
    exact ih _ (getPath_none_pruneWalkSpec p m q h)

theorem getPath_foldl_self (paths : List (List String)) (m : Record) (p : List String)
    (hp : p ∈ paths) (hne : p ≠ []) :
    getPath (paths.foldl pruneWalkSpec m) p = none := by
  induction paths generalizing m with
  | nil => cases hp
  | cons p0 rest ih =>
    simp only [List.foldl_cons]
    rcases List.mem_cons.mp hp with h0 | h0
    · subst h0
      exact getPath_none_foldl rest _ p (getPath_pruneWalkSpec_self p m hne)
    · exact ih _ h0

theorem getPath_foldl_divergent (paths : List (List String)) (m : Record) (q : List String)
    (h : ∀ p ∈ paths, divergent p q) :
    getPath (paths.foldl pruneWalkSpec m) q = getPath m q := by
  induction paths generalizing m with
  | nil => rfl
  | cons p0 rest ih =>
    simp only [List.foldl_cons]
    rw [ih _ (fun p hp => h p (by simp [hp]))]
    exact getPath_pruneWalkSpec_divergent p0 m q (h p0 (by simp))

/-! ### The decode-and-filter stage -/

theorem keepB_eq (allowed : Option (List String)) (m : Record) :
    keepB allowed m = (allowed.isNone || contains (allowed.getD []) (typeIdentity m)) := by
  cases allowed <;> rfl

theorem unmarshal_ok (rs : List Record) (allowed : Option (List String)) :
    unmarshalAllManifests (rs.map Doc.ok) allowed = Except.ok (rs.filter (keepB allowed)) := by
  induction rs with
  | nil => rfl
  | cons m rest ih =>
    simp only [List.map_cons, unmarshalAllManifests, ih, List.filter_cons]
    rw [← keepB_eq]
    cases hk : keepB allowed m <;> simp [hk]

theorem unmarshal_error_iff (docs : List Doc) (allowed : Option (List String)) :
    (∃ e, unmarshalAllManifests docs allowed = Except.error e) ↔
      (∃ msg, Doc.malformed msg ∈ docs) := by
  induction docs with
  | nil => simp [unmarshalAllManifests]
  | cons d rest ih =>
    cases d with
    | malformed msg => simp [unmarshalAllManifests]
    | ok m =>
      have step : (∃ e, unmarshalAllManifests (Doc.ok m :: rest) allowed = Except.error e) ↔
          (∃ e, unmarshalAllManifests rest allowed = Except.error e) := by
        cases hr : unmarshalAllManifests rest allowed with
        | error e => simp [unmarshalAllManifests, hr]
        | ok ms =>
          simp only [unmarshalAllManifests, hr]
          constructor
          · intro hx
            obtain ⟨e, he⟩ := hx
            split at he <;> cases he
          · intro hx
            obtain ⟨e, he⟩ := hx
            cases he
      rw [step, ih]
      simp

/-! ### The pruning loops never hit the panicking branch -/

theorem pruneAll_eq (paths : List (List String)) (m : Record) (h : ∀ p ∈ paths, p ≠ []) :
    pruneAll m paths = some (paths.foldl pruneWalkSpec m) := by
  induction paths generalizing m with
  | nil => rfl
  | cons p rest ih =>
    simp only [pruneAll, removeAttribute_eq_spec p m (h p (by simp)), List.foldl_cons]
    exact ih _ (fun q hq => h q (by simp [hq]))

theorem pruneManifests_eq (ms : List Record) (paths : List (List String))
    (h : ∀ p ∈ paths, p ≠ []) :
    pruneManifests ms paths = some (ms.map (fun m => paths.foldl pruneWalkSpec m)) := by
  induction ms with
  | nil => rfl
  | cons m rest ih =>
    simp only [pruneManifests, pruneAll_eq paths m h, ih, List.map_cons]

theorem splitDot_paths_ne_nil (filt : List String) :
    ∀ p ∈ filt.map splitDot, p ≠ [] := by
  intro p hp
  obtain ⟨s, hs, rfl⟩ := List.mem_map.mp hp
  exact splitDot_ne_nil s

/-! ### The pipeline on a well-formed body with status 200 -/

theorem readPipeline_200_eq (ser : Record → Option String) (rs : List Record)
    (filt onlyRes : List String) :
    readPipeline ser 200 (rs.map Doc.ok) filt onlyRes =
      some (Except.ok ((rs.filter (keepB (normalizeOnly onlyRes))).map
        (fun m => encodeStep (ser ((filt.map splitDot).foldl pruneWalkSpec m))))) := by
  simp [readPipeline, unmarshal_ok, pruneManifests_eq _ _ (splitDot_paths_ne_nil filt),
    List.map_map, Function.comp]

/-! ### The claims -/

/-- C1: for every record and every non-empty field path the pruner never
fails and computes exactly the specification's walk: it descends through
non-terminal segments only when the value under the segment's key is itself
a nested mapping, leaves the record entirely unchanged when a non-terminal
segment does not resolve, and at the terminal segment deletes the key from
the mapping reached if present. -/
theorem claim_C1_pruner_walk (m : Record) (path : List String) (h : path ≠ []) :
    removeAttribute m path = some (pruneWalkSpec m path) :=
  removeAttribute_eq_spec path m h

/-- Witness for C1: pruning a two-segment path through a nested mapping. -/
theorem claim_C1_pruner_walk_witness :
    removeAttribute [("a", Value.map [("b", Value.str "c"), ("d", Value.null)])] ["a", "b"] =
      some [("a", Value.map [("d", Value.null)])] :=
  (claim_C1_pruner_walk [("a", Value.map [("b", Value.str "c"), ("d", Value.null)])]
    ["a", "b"] (by decide)).trans (by rfl)

/-- Counterexample to C2 as stated: the claim says a record with an absent
apiVersion has identity "<nil>/Test" and so is kept by the allowed list
containing exactly that entry. The code's fmt.Sprintf %s verb renders the
nil interface through badVerb, so the record's identity under the code is
"%!s(<nil>)/Test", it differs from "<nil>/Test", and the list whose one
entry is "<nil>/Test" drops the record. -/
theorem claim_C2_counterexample :
    typeIdentity [("kind", Value.str "Test")] = "%!s(<nil>)/Test" ∧
    typeIdentity [("kind", Value.str "Test")] ≠ "<nil>/Test" ∧
    unmarshalAllManifests [Doc.ok [("kind", Value.str "Test")]]
        (normalizeOnly ["<nil>/Test"]) = Except.ok [] := by
  refine ⟨?_, ?_, ?_⟩
  · simp [typeIdentity, lookupV, goFmtLookup, goFmtValue]
  · simp [typeIdentity, lookupV, goFmtLookup, goFmtValue]
  · simp [unmarshalAllManifests, normalizeOnly, contains, typeIdentity, lookupV,
      goFmtLookup, goFmtValue]

/-- C2 as amended: after Read's normalization of the allowed-type list,
decoding a well-formed stream keeps a record iff the list is empty or the
record's "apiVersion/kind" identity exactly, case-sensitively matches some
entry, an absent field rendering as the literal text %!s(<nil>) (Go fmt's
%s verb applied to a nil interface), not as the spec's <nil>; kept records
are the decoded records themselves, unchanged. -/
theorem claim_C2_type_filter (rs : List Record) (l : List String) :
    unmarshalAllManifests (rs.map Doc.ok) (normalizeOnly l) =
      Except.ok (rs.filter (fun m => l.isEmpty || contains l (typeIdentity m))) ∧
    goFmtLookup none = "%!s(<nil>)" := by
  constructor
  · rw [unmarshal_ok]
    congr 1
    apply List.filter_congr
    intro m _
    cases l with
    | nil => rfl
    | cons a t => rfl
  · rfl

/-- C3: the decode stage errors iff some document of the stream is
malformed, in which case no list of manifests is produced; a stream of
well-formed documents returns every record, and the empty stream returns
zero records without error. -/
theorem claim_C3_strict_decode (docs : List Doc) :
    ((∃ msg, Doc.malformed msg ∈ docs) ↔
      ∃ e, unmarshalAllManifests docs none = Except.error e) ∧
    (∀ rs : List Record, docs = rs.map Doc.ok →
      unmarshalAllManifests docs none = Except.ok rs) ∧
    unmarshalAllManifests ([] : List Doc) none = Except.ok ([] : List Record) := by
  refine ⟨(unmarshal_error_iff docs none).symm, ?_, rfl⟩
  intro rs hrs
  subst hrs
  rw [unmarshal_ok]
  simp [keepB]

/-- Witness for C3: a well-formed one-document stream decodes to exactly
that record. -/
theorem claim_C3_strict_decode_witness :
    unmarshalAllManifests [Doc.ok [("kind", Value.str "Test")]] none =
      Except.ok [[("kind", Value.str "Test")]] :=
  (claim_C3_strict_decode [Doc.ok [("kind", Value.str "Test")]]).2.1
    [[("kind", Value.str "Test")]] rfl

/-- C4: a response status other than 200 makes the fetch fail with the
exact diagnostic detail "Received non-success response code: <code>"
whatever the body holds (so nothing is decoded), while status 200 proceeds
to decoding and succeeds on any well-formed body. -/
theorem claim_C4_status_check (ser : Record → Option String) (c : Nat) (body : List Doc)
    (filt onlyRes : List String) (h : c ≠ 200) :
    readPipeline ser c body filt onlyRes =
      some (Except.error ("Received non-success response code: " ++ toString c)) ∧
    (∀ rs : List Record, ∃ out, readPipeline ser 200 (rs.map Doc.ok) filt onlyRes =
      some (Except.ok out)) := by
  constructor
  · simp [readPipeline, h]
  · intro rs
    exact ⟨_, readPipeline_200_eq ser rs filt onlyRes⟩

/-- Witness for C4: a 204 response with a malformed body fails with the
status diagnostic, not a parse one. -/
theorem claim_C4_status_check_witness :
    readPipeline (fun _ => some "") 204 [Doc.malformed "bad document"] [] [] =
      some (Except.error ("Received non-success response code: " ++ toString 204)) :=
  (claim_C4_status_check (fun _ => some "") 204 [Doc.malformed "bad document"] [] []
    (by decide)).1

/-- C5: round-trip: a valid single-document stream processed with no
filtered attributes and no type restriction outputs the one-element
sequence holding the serialization of the untouched input record, so any
decoding of that element that inverts the serializer recovers a record
semantically equal (content modulo mapping-entry order) to the input
document. -/
theorem claim_C5_round_trip (ser : Record → Option String) (decode : String → Option Record)
    (r r2 : Record) (s : String)
    (hser : ser r = some s) (hdec : decode s = some r2) (hsem : RecordSemEq r2 r) :
    readPipeline ser 200 [Doc.ok r] [] [] = some (Except.ok [s]) ∧
    ∃ r3, decode s = some r3 ∧ RecordSemEq r3 r := by
  refine ⟨?_, ⟨r2, hdec, hsem⟩⟩
  have h := readPipeline_200_eq ser [r] [] []
  simpa [keepB, normalizeOnly, encodeStep, hser] using h

/-- Witness for C5 with a concrete record, serializer and inverting
decoder. -/
theorem claim_C5_round_trip_witness :
    readPipeline (fun _ => some "kind: Test") 200 [Doc.ok [("kind", Value.str "Test")]] [] [] =
      some (Except.ok ["kind: Test"]) ∧
    ∃ r3, (fun _ : String => some ([("kind", Value.str "Test")] : Record)) "kind: Test" =
        some r3 ∧ RecordSemEq r3 [("kind", Value.str "Test")] :=
  claim_C5_round_trip (fun _ => some "kind: Test")
    (fun _ => some [("kind", Value.str "Test")])
    [("kind", Value.str "Test")] [("kind", Value.str "Test")] "kind: Test"
    rfl rfl ⟨2, rfl⟩

/-- C6: for every stream of well-formed documents the output is exactly one
serialized string per surviving record, in the order the documents appeared
in the stream: it is the in-order image of the in-order filtered record
list under pruning and encoding. -/
theorem claim_C6_order (ser : Record → Option String) (rs : List Record)
    (filt onlyRes : List String) :
    readPipeline ser 200 (rs.map Doc.ok) filt onlyRes =
      some (Except.ok ((rs.filter (keepB (normalizeOnly onlyRes))).map
        (fun m => encodeStep (ser ((filt.map splitDot).foldl pruneWalkSpec m))))) :=
  readPipeline_200_eq ser rs filt onlyRes

/-- C7: frame property of pruning: applying the pruner for each path leaves
every pruned path unresolvable (the named field is absent) while every
field whose path neither extends nor is extended by a pruned path is
unchanged. -/
theorem claim_C7_frame (m : Record) (paths : List (List String))
    (h : ∀ p ∈ paths, p ≠ []) :
    ∃ m2, pruneAll m paths = some m2 ∧
      (∀ p ∈ paths, getPath m2 p = none) ∧
      (∀ q, (∀ p ∈ paths, divergent p q) → getPath m2 q = getPath m q) := by
  refine ⟨paths.foldl pruneWalkSpec m, pruneAll_eq paths m h, ?_, ?_⟩
  · intro p hp
    exact getPath_foldl_self paths m p hp (h p hp)
  · intro q hq
    exact getPath_foldl_divergent paths m q hq

/-- Witness for C7 on the spec's scenario A shape: prune status and
metadata.creationTimestamp. -/
theorem claim_C7_frame_witness :
    ∃ m2, pruneAll
        [("metadata", Value.map [("annot", Value.str "world")]),
         ("spec", Value.map [("some", Value.str "key")]),
         ("status", Value.map [("abc", Value.str "def")])]
        [["status"], ["metadata", "creationTimestamp"]] = some m2 ∧
      (∀ p ∈ [["status"], ["metadata", "creationTimestamp"]], getPath m2 p = none) ∧
      (∀ q, (∀ p ∈ [["status"], ["metadata", "creationTimestamp"]], divergent p q) →
        getPath m2 q = getPath
          [("metadata", Value.map [("annot", Value.str "world")]),
           ("spec", Value.map [("some", Value.str "key")]),
           ("status", Value.map [("abc", Value.str "def")])] q) :=
  claim_C7_frame
    [("metadata", Value.map [("annot", Value.str "world")]),
     ("spec", Value.map [("some", Value.str "key")]),
     ("status", Value.map [("abc", Value.str "def")])]
    [["status"], ["metadata", "creationTimestamp"]] (by decide)

/-- C8: re-encoder error policy: serializer errors are swallowed and the
empty string is substituted for each record the serializer failed on while
the pipeline still succeeds; an always-succeeding serializer contributes
its output verbatim. -/
theorem claim_C8_encode_policy (ser : Record → Option String) (rs : List Record)
    (filt onlyRes : List String) (hfail : ∀ m, ser m = none) :
    readPipeline ser 200 (rs.map Doc.ok) filt onlyRes =
      some (Except.ok (List.replicate
        ((rs.filter (keepB (normalizeOnly onlyRes))).length) "")) ∧
    (∀ f : Record → String,
      readPipeline (fun m => some (f m)) 200 (rs.map Doc.ok) filt onlyRes =
        some (Except.ok ((rs.filter (keepB (normalizeOnly onlyRes))).map
          (fun m => f ((filt.map splitDot).foldl pruneWalkSpec m))))) := by
  constructor
  · rw [readPipeline_200_eq]
    simp [hfail, encodeStep, List.map_const']
  · intro f
    rw [readPipeline_200_eq]
    simp [encodeStep]

/-- Witness for C8: a serializer that always fails still lets the pipeline
succeed, emitting one empty string for the surviving record. -/
theorem claim_C8_encode_policy_witness :
    readPipeline (fun _ => none) 200 (([[("a", Value.null)]] : List Record).map Doc.ok) [] [] =
      some (Except.ok (List.replicate
        ((([[("a", Value.null)]] : List Record).filter (keepB (normalizeOnly []))).length) "")) :=
  (claim_C8_encode_policy (fun _ => none) [[("a", Value.null)]] [] [] (fun _ => rfl)).1

/-- C9: splitting any attribute string on dots yields at least one segment,
so every path handed to the pruner is non-empty and removeAttribute's
out-of-range branch is unreachable: on such paths it always returns a
result. -/
theorem claim_C9_split_nonempty (s : String) (m : Record) :
    splitDot s ≠ [] ∧ (removeAttribute m (splitDot s)).isSome = true := by
  refine ⟨splitDot_ne_nil s, ?_⟩
  rw [removeAttribute_eq_spec (splitDot s) m (splitDot_ne_nil s)]
  rfl

/-- C10: an empty filtered_attributes entry parses to the single-segment
path holding the empty string, which deletes the root entry keyed by the
empty string when present and otherwise leaves the record unchanged; it
never errors. -/
theorem claim_C10_empty_string_path (m : Record) :
    splitDot "" = [""] ∧
    removeAttribute m (splitDot "") = some (eraseKey m "") ∧
    (lookupV m "" = none → removeAttribute m (splitDot "") = some m) := by
  refine ⟨rfl, rfl, ?_⟩
  intro h
  have he : eraseKey m "" = m := eraseKey_of_absent m "" h
  calc removeAttribute m (splitDot "") = some (eraseKey m "") := rfl
  _ = some m := by rw [he]

/-- Witness for C10: a record without an empty-string key is unchanged. -/
theorem claim_C10_empty_string_path_witness :
    removeAttribute [("a", Value.str "x")] (splitDot "") = some [("a", Value.str "x")] :=
  (claim_C10_empty_string_path [("a", Value.str "x")]).2.2 rfl
